import Mathlib

/-!
A shallow embedding of `src/Geometry3D/geometry/polygen.py` (the `ConvexPolygen`
class and its helper `get_triangle_area`), together with theorems settling the
frozen claims about that module.

Conventions of the embedding:

* Python floats are idealized as exact rationals (`ℚ`).  `math.sqrt` is
  modelled by `sqrtQ`, which is exact on perfect squares; every theorem that
  depends on square-root values is evaluated at inputs where `sqrtQ` is exact.
* The collaborator types `Point`, `Vector`, `Segment` and `Plane` live in
  `src/Geometry3D/geometry/point.py`, `utils/vector.py`, `geometry/segment.py`
  and `geometry/plane.py`, which are not part of the sources given here; they
  are modelled from the spec (each such definition carries a
  `Modelled from the spec:` doc comment).
* Fallible Python code (raising `ValueError` / `IndexError` /
  `NotImplementedError`) is modelled with `Except GeoErr`.
* Python's `dict` keyed by the float angle, and `sorted` over those keys, are
  modelled by an order- and equality-faithful rational key (`angleKey`): the
  code sorts by `atan2` values in `[0, 2*pi)`, and `angleKey` is a computable
  key whose equality and order coincide with equality and order of those
  angles (dropping the two `normalized()` calls only rescales the two
  projections by positive constants, which changes neither the induced order
  nor which points collide on the same key).
-/

attribute [local semireducible] Rat.add Rat.mul Rat.sub Rat.inv

namespace Geometry3D

/-- Modelled from the spec: a 3D vector (external collaborator type
`Geometry3D.utils.vector.Vector`), idealized over `ℚ`. -/
structure Vec where
  x : ℚ
  y : ℚ
  z : ℚ
deriving DecidableEq, Repr

/-- Modelled from the spec: a 3D point (external collaborator type
`Geometry3D.geometry.point.Point`), idealized over `ℚ`. -/
structure Point where
  x : ℚ
  y : ℚ
  z : ℚ
deriving DecidableEq, Repr

namespace Vec

def zero : Vec := ⟨0, 0, 0⟩

def add (v w : Vec) : Vec := ⟨v.x + w.x, v.y + w.y, v.z + w.z⟩

def sub (v w : Vec) : Vec := ⟨v.x - w.x, v.y - w.y, v.z - w.z⟩

def neg (v : Vec) : Vec := ⟨-v.x, -v.y, -v.z⟩

def smul (t : ℚ) (v : Vec) : Vec := ⟨t * v.x, t * v.y, t * v.z⟩

/-- Modelled from the spec: the dot product (`Vector.__mul__`). -/
def dot (v w : Vec) : ℚ := v.x * w.x + v.y * w.y + v.z * w.z

/-- Modelled from the spec: the cross product (`Vector.cross`). -/
def cross (v w : Vec) : Vec :=
  ⟨v.y * w.z - v.z * w.y, v.z * w.x - v.x * w.z, v.x * w.y - v.y * w.x⟩

/-- The squared Euclidean norm. -/
def normSq (v : Vec) : ℚ := v.x * v.x + v.y * v.y + v.z * v.z

end Vec

/-- The integer square root (the largest `k` with `k * k <= n`), written as a
fold so that it evaluates inside the kernel. -/
def isqrt (n : ℕ) : ℕ :=
  ((List.range (n + 1)).filter fun k => k * k ≤ n).foldl Nat.max 0

/-- `math.sqrt`, modelled over `ℚ`: exact whenever numerator and denominator of
the (reduced) input are perfect squares, an integer-square-root approximation
otherwise.  Theorems never depend on its values outside perfect squares. -/
def sqrtQ (q : ℚ) : ℚ := (isqrt q.num.toNat : ℚ) / (isqrt q.den : ℚ)

/-- Modelled from the spec: `Vector.length()` (Euclidean norm). -/
def Vec.length (v : Vec) : ℚ := sqrtQ v.normSq

/-- Modelled from the spec: `get_eps()` from `utils/constant.py`, a fixed
small positive numeric tolerance. -/
def eps : ℚ := 1 / 10 ^ 10

/-- `Vector(a, b)` in Geometry3D is the displacement from `a` to `b`.
Modelled from the spec ("vector-to" operation of `Point`). -/
def vsub (a b : Point) : Vec := ⟨b.x - a.x, b.y - a.y, b.z - a.z⟩

/-- Modelled from the spec: `Point.pv()`, the position vector of a point. -/
def Point.pv (p : Point) : Vec := ⟨p.x, p.y, p.z⟩

/-- Modelled from the spec: `Point.move(v)` translates the point by `v`. -/
def Point.move (p : Point) (v : Vec) : Point := ⟨p.x + v.x, p.y + v.y, p.z + v.z⟩

/-- Modelled from the spec: `Point.distance(other)`, the Euclidean distance. -/
def Point.distance (a b : Point) : ℚ := sqrtQ (Vec.normSq (vsub a b))

/-- A placeholder point used with `List.getD`; every theorem's hypotheses keep
list accesses in range, so it is never the value actually read. -/
def dummyPoint : Point := ⟨0, 0, 0⟩

/-- Modelled from the spec: the external `Plane` collaborator, stored as a
base point together with a (not necessarily unit) normal vector. -/
structure Plane where
  p : Point
  n : Vec
deriving DecidableEq, Repr

/-- Modelled from the spec: `Plane(a, b, c)` fits the plane through three
points; its normal is the cross product of the two edge vectors at `a`. -/
def mkPlane (a b c : Point) : Plane := ⟨a, Vec.cross (vsub a b) (vsub a c)⟩

/-- Modelled from the spec: `-plane` flips the orientation (negates the
normal). -/
def Plane.negP (pl : Plane) : Plane := ⟨pl.p, pl.n.neg⟩

/-- The absolute value on `ℚ`, written out so that concrete instances
evaluate inside the kernel. -/
def qabs (q : ℚ) : ℚ := if q < 0 then -q else q

theorem qabs_eq_abs (q : ℚ) : qabs q = |q| := by
  unfold qabs
  rcases lt_or_le q 0 with h | h
  · rw [if_pos h, abs_of_neg h]
  · rw [if_neg (not_lt.mpr h), abs_of_nonneg h]

/-- Modelled from the spec: tolerance-based plane membership
(`point in plane`): the (normal-weighted) signed distance is below `eps`. -/
def planeContains (pl : Plane) (q : Point) : Prop :=
  qabs (Vec.dot pl.n q.pv - Vec.dot pl.n pl.p.pv) < eps

instance (pl : Plane) (q : Point) : Decidable (planeContains pl q) := by
  unfold planeContains; infer_instance

/-- Helper for `pydedup`: keep the elements not occurring in `seen`, first
occurrences only. -/
def pydedupA {α : Type} [DecidableEq α] (seen : List α) : List α → List α
  | [] => []
  | a :: l => if a ∈ seen then pydedupA seen l else a :: pydedupA (a :: seen) l

/-- `sorted(set(points), key=points.index)` from `ConvexPolygen.__init__`:
deduplication preserving first-occurrence order. -/
def pydedup {α : Type} [DecidableEq α] (l : List α) : List α := pydedupA [] l

/-- The error kinds raised by the module (`ValueError` for the two geometric
validation failures and the parallelogram checks, `IndexError` for an
out-of-range tuple access). -/
inductive GeoErr where
  | tooFewPoints
  | indexError
  | notCoplanar
  | zeroLength
  | parallelErr
deriving DecidableEq, Repr

deriving instance DecidableEq for Except

/-- The sort key standing for the float angle `vector_angle` of
`_check_and_sort_points`.  For in-plane coordinates `(y, z)` of a point
(relative to the centroid), the code computes `atan2(z, y)` normalized into
`[0, 2*pi)` and uses that float both as a `dict` key and as the `sorted` key.
`angleKey y z` is a rational stand-in: two coordinate pairs get the same key
iff their angles are equal, and keys compare (lexicographically) in the same
order as the angles.  Quadrant classes: angle `0` (`z = 0, y >= 0`, including
the origin, since `atan2(0, 0) = 0`); `(0, pi)` (`z > 0`), ordered by the
negated cotangent `-(y/z)`; angle `pi` (`z = 0, y < 0`); `(pi, 2*pi)`
(`z < 0`), again ordered by `-(y/z)`. -/
def angleKey (y z : ℚ) : ℕ × ℚ :=
  if 0 < z then (1, -(y / z))
  else if z < 0 then (3, -(y / z))
  else if y < 0 then (2, 0)
  else (0, 0)

/-- Lexicographic order on angle keys, matching the order of the angles that
the keys stand for (Python sorts the float angles ascending). -/
def keyLE (a b : ℕ × ℚ) : Prop := a.1 < b.1 ∨ (a.1 = b.1 ∧ a.2 ≤ b.2)

instance : DecidableRel keyLE := by
  intro a b; unfold keyLE; infer_instance

/-- The final value stored in a Python `dict` under key `k` after inserting
the pairs of `prs` in order: the value of the last pair with key `k`
(later insertions overwrite earlier ones), `dummyPoint` if the key is absent
(never reached under the theorems' hypotheses). -/
def dictGet (k : ℕ × ℚ) (prs : List ((ℕ × ℚ) × Point)) : Point :=
  (prs.foldl (fun acc e => if e.1 = k then some e.2 else acc) none).getD dummyPoint

/-- The in-plane coordinates and the angle key that
`_check_and_sort_points` computes for a point: `pv = point.pv() -
center_point.pv()`, `y = pv * v0`, `z = pv * v1`, key `atan2(z, y)`.
The two `normalized()` calls of the source (on the plane normal and on `v0`)
are dropped: they rescale `y` and `z` by positive constants, which preserves
both the relative order of the angles and which points share a key. -/
def sortKey (pl : Plane) (center : Point) (first : Point) (pt : Point) : ℕ × ℚ :=
  let v0 := vsub center first
  let v1 := Vec.cross pl.n v0
  let pv := Vec.sub pt.pv center.pv
  angleKey (Vec.dot pv v0) (Vec.dot pv v1)

/-- The list of angle keys of all points, in visit order. -/
def sortKeys (pl : Plane) (center : Point) (pts : List Point) : List (ℕ × ℚ) :=
  pts.map (sortKey pl center (pts.headD dummyPoint))

/-- `ConvexPolygen._check_and_sort_points`, as a function of the fields it
reads (`self.plane`, `self.center_point`, `self.points`): raise `ValueError`
if some point is not on the plane (tolerance-based); otherwise build the
angle-to-point `dict` (later points overwrite earlier ones on key ties) and
return the points listed by ascending key. -/
def checkAndSort (pl : Plane) (center : Point) (pts : List Point) :
    Except GeoErr (List Point) :=
  if ∀ p ∈ pts, planeContains pl p then
    let pairs := pts.map (fun p => (sortKey pl center (pts.headD dummyPoint) p, p))
    let keys := pydedup (sortKeys pl center pts)
    .ok ((List.insertionSort keyLE keys).map (fun k => dictGet k pairs))
  else .error .notCoplanar

/-- The state of a `ConvexPolygen` instance: its three data attributes. -/
structure Poly where
  points : List Point
  plane : Plane
  center_point : Point
deriving DecidableEq, Repr

/-- `ConvexPolygen._get_center_point`: the coordinate-wise mean of
`self.points`. -/
def centerPoint (pts : List Point) : Point :=
  ⟨(pts.map Point.x).sum / pts.length, (pts.map Point.y).sum / pts.length,
    (pts.map Point.z).sum / pts.length⟩

/-- `ConvexPolygen.__init__(pts, reverse)`.  Mirrors the source order of
effects: deduplicate (`self.points`), test `len(points) < 3` on the RAW input
list (`points`, not `self.points` — so duplicates collapsing below 3 distinct
points slip past the check), fit the plane from `self.points[0..2]` (an
`IndexError` when fewer than 3 distinct points remain), negated when
`reverse` is set, compute the centroid, then canonicalize via
`checkAndSort`. -/
def initPoly (pts : List Point) (reverse : Bool) : Except GeoErr Poly :=
  let spts := pydedup pts
  if pts.length < 3 then .error .tooFewPoints
  else
    match spts with
    | p0 :: p1 :: p2 :: _ =>
      let plane := if reverse then (mkPlane p0 p1 p2).negP else mkPlane p0 p1 p2
      let center := centerPoint spts
      match checkAndSort plane center spts with
      | .ok canon => .ok ⟨canon, plane, center⟩
      | .error e => .error e
    | _ => .error .indexError

/-- `ConvexPolygen.__neg__`: rebuild from the same points with the plane
reversed. -/
def negPoly (P : Poly) : Except GeoErr Poly := initPoly P.points true

/-- `ConvexPolygen.move(v)`: translate every point, refit the plane from the
first three translated points, recompute the centroid (mutating `self`
without re-sorting), and return `ConvexPolygen(self.points)` built afresh.
The result is the pair (mutated receiver state, returned polygon). -/
def movePoly (P : Poly) (v : Vec) : Poly × Except GeoErr Poly :=
  let pts := P.points.map (fun p => p.move v)
  let mutated : Poly :=
    ⟨pts, mkPlane (pts.getD 0 dummyPoint) (pts.getD 1 dummyPoint) (pts.getD 2 dummyPoint),
      centerPoint pts⟩
  (mutated, initPoly pts false)

/-- Modelled from the spec: `Vector.parallel`, the parallel test used by
`Parallelogram` (tolerance-based: the cross product has length below
`eps`). -/
def Vec.parallel (v w : Vec) : Prop := (Vec.cross v w).length < eps

instance (v w : Vec) : Decidable (v.parallel w) := by
  unfold Vec.parallel; infer_instance

/-- `ConvexPolygen.Parallelogram(base_point, v1, v2)`.  The source tests
`v1.length() == 0 or v2.length == 0`: the second disjunct compares the BOUND
METHOD object `v2.length` (not its result) with `0`, which is never true in
Python, hence the literal `False` below.  A zero `v2` instead reaches the
`v1.parallel(v2)` test.  The `isinstance` guard of the source is enforced by
the Lean types themselves. -/
def parallelogram (base_point : Point) (v1 v2 : Vec) : Except GeoErr Poly :=
  if v1.length = 0 ∨ False then .error .zeroLength
  else if v1.parallel v2 then .error .parallelErr
  else
    initPoly
      [base_point, base_point.move v1, base_point.move v2,
        (base_point.move v1).move v2] false

/-- Modelled from the spec: `Vector.normalized()`, the unit vector
`self * (1 / self.length())` (with `sqrtQ` standing for the real square
root). -/
def vnormalize (v : Vec) : Vec := Vec.smul (1 / v.length) v

/-- Modelled from the spec: the external `Segment` collaborator, a pair of
endpoints. -/
structure Seg where
  start_point : Point
  end_point : Point
deriving DecidableEq, Repr

/-- The boundary edges `(self.points[index_0], self.points[index_1])` visited
by the loops of `__contains__` and `area`: `index_0 = i` and `index_1 = 0`
when `i == len - 1`, else `i + 1`. -/
def edgePairs (pts : List Point) : List (Point × Point) :=
  (List.range pts.length).map fun i =>
    (pts.getD i dummyPoint, pts.getD (if i = pts.length - 1 then 0 else i + 1) dummyPoint)

/-- The edge loop of `__contains__` for a `Point` argument, with its early
`break`: for each edge `(p0, p1)`, `v0 = Vector(p0, p1)`,
`v1 = the_normal.cross(v0)`, `vec = Vector(p0, other)`; the first edge with
`vec * v1 < -get_eps()` makes the whole loop answer `false`. -/
def containsLoop (nrm : Vec) (q : Point) : List (Point × Point) → Bool
  | [] => true
  | (p0, p1) :: rest =>
    if Vec.dot (vsub p0 q) (Vec.cross nrm (vsub p0 p1)) < -eps then false
    else containsLoop nrm q rest

/-- The `Point` branch of `ConvexPolygen.__contains__`: `r1` (the point is on
the plane) and `r2` (the edge loop); the source computes both and returns
`r1 and r2`. -/
def containsPoint (P : Poly) (q : Point) : Bool :=
  decide (planeContains P.plane q) &&
    containsLoop (vnormalize P.plane.n) q (edgePairs P.points)

/-- The `Segment` branch of `ConvexPolygen.__contains__`: both endpoints are
tested independently. -/
def containsSeg (P : Poly) (s : Seg) : Bool :=
  containsPoint P s.start_point && containsPoint P s.end_point

/-- The argument of `ConvexPolygen.__contains__`, following the `isinstance`
dispatch of the source: a `Point`, a `Segment`, or a value of any other
type. -/
inductive ContainsArg where
  | pt (q : Point)
  | seg (s : Seg)
  | other

/-- What `ConvexPolygen.__contains__` hands back: a boolean verdict, or — in
the `else` branch of the source — a `NotImplementedError` instance that is
RETURNED (not raised). -/
inductive ContainsRet where
  | verdict (b : Bool)
  | returnedNotImplErrObj
deriving DecidableEq, Repr

/-- `ConvexPolygen.__contains__` itself.  Note the source's `else` branch is
`return NotImplementedError("")` — it builds the exception object and returns
it as the method's value instead of raising it. -/
def containsDispatch (P : Poly) : ContainsArg → ContainsRet
  | .pt q => .verdict (containsPoint P q)
  | .seg s => .verdict (containsSeg P s)
  | .other => .returnedNotImplErrObj

/-- The value of the Python expression `x in polygen`: the interpreter
coerces the `__contains__` result with `bool(...)`; an exception INSTANCE is
an ordinary truthy object, so the `other` branch yields `True`. -/
def inOp (P : Poly) (a : ContainsArg) : Bool :=
  match containsDispatch P a with
  | .verdict b => b
  | .returnedNotImplErrObj => true

/-- `get_triangle_area(pa, pb, pc)`: Heron's formula from the three pairwise
distances. -/
def get_triangle_area (pa pb pc : Point) : ℚ :=
  let a := pa.distance pb
  let b := pb.distance pc
  let c := pc.distance pa
  let p := (a + b + c) / 2
  sqrtQ (p * (p - a) * (p - b) * (p - c))

/-- `ConvexPolygen.area()`: the loop accumulating the Heron area of the
triangle (`center_point`, `points[index_0]`, `points[index_1]`) over all
`i in range(len(points))`. -/
def areaPoly (P : Poly) : ℚ :=
  (List.range P.points.length).foldl
    (fun acc i =>
      acc +
        get_triangle_area P.center_point (P.points.getD i dummyPoint)
          (P.points.getD (if i = P.points.length - 1 then 0 else i + 1) dummyPoint))
    0

/-- The first nonzero coordinate of a vector (`0` for the zero vector);
used to pick a canonical representative of the normal's ray. -/
def lead (v : Vec) : ℚ := if v.x ≠ 0 then v.x else if v.y ≠ 0 then v.y else v.z

/-- The canonical representative of the open ray spanned positively by `v`:
`v` rescaled so that its first nonzero coordinate becomes `±1`.
Positively proportional vectors agree here; negating `v` negates it. -/
def canonDir (v : Vec) : Vec := Vec.smul (1 / qabs (lead v)) v

/-- Modelled from the spec: the data `Plane.__hash__` fingerprints, reduced
to a canonical form so that (as Python requires of `__hash__`) equal planes
hash equally: the canonical ray representative of the normal plus the
correspondingly rescaled offset, or `none` for a degenerate (zero) normal. -/
def canonForm (pl : Plane) : Option (ℚ × ℚ × ℚ × ℚ) :=
  if pl.n = Vec.zero then none
  else
    some ((canonDir pl.n).x, (canonDir pl.n).y, (canonDir pl.n).z,
      Vec.dot pl.n pl.p.pv / qabs (lead pl.n))

/-- Modelled from the spec: `hash(plane)` as an integer determined
injectively by the plane's canonical form. -/
def pyHashPlane (pl : Plane) : ℤ := (Encodable.encode (canonForm pl) : ℤ)

/-- Modelled from the spec: `hash(point)` as an integer determined by the
point's coordinates. -/
def pyHashPoint (p : Point) : ℤ := (Encodable.encode (p.x, p.y, p.z) : ℤ)

/-- `ConvexPolygen._get_point_hash_sum`: the sum of the point hashes. -/
def pointHashSum (pts : List Point) : ℤ := (pts.map pyHashPoint).sum

/-- `ConvexPolygen.__hash__`: the tuple
`("ConvexPolygen", round(hash_sum, SIG_FIGURES), hash(plane) + hash(-plane),
hash(plane) * hash(-plane))` (the constant tag is dropped; `round` applied to
the integer `hash_sum` with a positive digit count is the identity, so it is
dropped as well).  Tuple hashing is modelled by the component tuple itself. -/
def polyHash (P : Poly) : ℤ × ℤ × ℤ :=
  (pointHashSum P.points,
    pyHashPlane P.plane + pyHashPlane P.plane.negP,
    pyHashPlane P.plane * pyHashPlane P.plane.negP)

/-- `ConvexPolygen.hash_with_normal`: the tuple
`("ConvexPolygen", round(hash_sum, SIG_FIGURES - 5), hash(plane))`, with the
same simplifications as in `polyHash` (the plane hash enters UNsymmetrized). -/
def hashWithNormal (P : Poly) : ℤ × ℤ :=
  (pointHashSum P.points, pyHashPlane P.plane)

/-- The argument of `__eq__` / `eq_with_normal`, following the `isinstance`
dispatch: another `ConvexPolygen`, or a value of any other type. -/
inductive EqArg where
  | polyArg (q : Poly)
  | foreign

/-- `ConvexPolygen.__eq__`: hash comparison for another `ConvexPolygen`,
`False` for any other type. -/
def eqPy (P : Poly) : EqArg → Bool
  | .polyArg q => decide (polyHash P = polyHash q)
  | .foreign => false

/-- `ConvexPolygen.eq_with_normal`: orientation-sensitive hash comparison for
another `ConvexPolygen`, `False` for any other type. -/
def eqWithNormalPy (P : Poly) : EqArg → Bool
  | .polyArg q => decide (hashWithNormal P = hashWithNormal q)
  | .foreign => false

/-! ### Basic lemmas about the numeric helpers -/

theorem eps_pos : 0 < eps := by decide

theorem foldl_max_ge_init (l : List ℕ) (a : ℕ) : a ≤ l.foldl Nat.max a := by
  induction l generalizing a with
  | nil => exact le_refl a
  | cons b l ih => exact le_trans (Nat.le_max_left a b) (ih (Nat.max a b))

theorem foldl_max_ge_mem {x : ℕ} (l : List ℕ) (a : ℕ) (hx : x ∈ l) :
    x ≤ l.foldl Nat.max a := by
  induction l generalizing a with
  | nil => cases hx
  | cons b l ih =>
    rcases List.mem_cons.mp hx with rfl | hx
    · exact le_trans (Nat.le_max_right a x) (foldl_max_ge_init l _)
    · exact ih _ hx

theorem isqrt_pos {n : ℕ} (h : 1 ≤ n) : 1 ≤ isqrt n := by
  unfold isqrt
  refine foldl_max_ge_mem _ _ ?_
  refine List.mem_filter.mpr ⟨List.mem_range.mpr ?_, by simpa using h⟩
  omega

theorem Vec.normSq_nonneg (v : Vec) : 0 ≤ v.normSq := by
  unfold Vec.normSq
  nlinarith [sq_nonneg v.x, sq_nonneg v.y, sq_nonneg v.z]

theorem Vec.normSq_eq_zero_iff (v : Vec) : v.normSq = 0 ↔ v = Vec.zero := by
  constructor
  · intro h
    unfold Vec.normSq at h
    have hx : v.x = 0 := by nlinarith [sq_nonneg v.x, sq_nonneg v.y, sq_nonneg v.z]
    have hy : v.y = 0 := by nlinarith [sq_nonneg v.x, sq_nonneg v.y, sq_nonneg v.z]
    have hz : v.z = 0 := by nlinarith [sq_nonneg v.x, sq_nonneg v.y, sq_nonneg v.z]
    cases v
    simp_all [Vec.zero]
  · rintro rfl
    simp [Vec.normSq, Vec.zero]

theorem sqrtQ_pos {q : ℚ} (h : 0 < q) : 0 < sqrtQ q := by
  unfold sqrtQ
  have hnum : 1 ≤ q.num := by exact_mod_cast Rat.num_pos.mpr h
  have hnum' : 1 ≤ q.num.toNat := by omega
  have h1 : (0 : ℚ) < (isqrt q.num.toNat : ℚ) := by
    exact_mod_cast Nat.lt_of_lt_of_le Nat.zero_lt_one (isqrt_pos hnum')
  have h2 : (0 : ℚ) < (isqrt q.den : ℚ) := by
    exact_mod_cast Nat.lt_of_lt_of_le Nat.zero_lt_one (isqrt_pos q.pos)
  exact div_pos h1 h2

theorem sqrtQ_zero : sqrtQ 0 = 0 := by decide

theorem Vec.length_eq_zero_iff (v : Vec) : v.length = 0 ↔ v = Vec.zero := by
  constructor
  · intro h
    by_contra hv
    have hsq : 0 < v.normSq :=
      lt_of_le_of_ne (Vec.normSq_nonneg v)
        (fun he => hv ((Vec.normSq_eq_zero_iff v).mp he.symm))
    exact absurd h (ne_of_gt (sqrtQ_pos hsq))
  · rintro rfl
    show sqrtQ (Vec.normSq Vec.zero) = 0
    have : Vec.normSq Vec.zero = 0 := by decide
    rw [this, sqrtQ_zero]

theorem Vec.cross_zero_right (v : Vec) : Vec.cross v Vec.zero = Vec.zero := by
  simp [Vec.cross, Vec.zero]

theorem Vec.parallel_zero_right (v : Vec) : v.parallel Vec.zero := by
  unfold Vec.parallel
  rw [Vec.cross_zero_right, (Vec.length_eq_zero_iff Vec.zero).mpr rfl]
  exact eps_pos

/-- A left fold accumulating `f` over `List.range n` is the corresponding
finite sum. -/
theorem foldl_add_range (f : ℕ → ℚ) (n : ℕ) :
    (List.range n).foldl (fun a i => a + f i) 0 = ∑ i ∈ Finset.range n, f i := by
  induction n with
  | zero => simp
  | succ n ih =>
    rw [List.range_succ, List.foldl_append, Finset.sum_range_succ, ih]
    simp

/-! ### Claim theorems: the straightforward claims -/

/-- C1.  The claim says every input with fewer than 3 distinct points after
deduplication (also when 3 or more raw points collapse below 3 distinct
values) raises the InvalidGeometry error.  The code tests `len(points) < 3`
on the raw input list before deduplication takes effect on the test, so the
collapsing case instead hits `self.points[2]` out of range: this theorem
evaluates the constructor at the failing input `[A, A, B]` (three raw points,
two distinct) and shows it produces the `IndexError`, a different failure
than the `ValueError` (`tooFewPoints`) the claim requires. -/
theorem C1_dedup_collapse_hits_IndexError :
    initPoly [⟨0, 0, 0⟩, ⟨0, 0, 0⟩, ⟨1, 0, 0⟩] false = .error .indexError ∧
      GeoErr.indexError ≠ GeoErr.tooFewPoints := by
  decide

/-- C4.  `Parallelogram(base_point, v1, v2)` fails with a validation
(`ValueError`) failure whenever `v1` and `v2` are parallel or either has zero
length.  (Internally a zero `v2` escapes the zero-length branch — the source
compares the bound method `v2.length` with `0` — but it is then caught by the
parallel test, since the zero vector is parallel to everything.) -/
theorem C4_parallelogram_rejects_parallel_or_zero (b : Point) (v1 v2 : Vec)
    (h : v1.parallel v2 ∨ v1.length = 0 ∨ v2.length = 0) :
    ∃ e, parallelogram b v1 v2 = .error e ∧
      (e = GeoErr.zeroLength ∨ e = GeoErr.parallelErr) := by
  unfold parallelogram
  by_cases hz : v1.length = 0 ∨ False
  · rw [if_pos hz]
    exact ⟨GeoErr.zeroLength, rfl, Or.inl rfl⟩
  · rw [if_neg hz]
    have hpar : v1.parallel v2 := by
      rcases h with h | h | h
      · exact h
      · exact absurd (Or.inl h) hz
      · have hv2 : v2 = Vec.zero := (Vec.length_eq_zero_iff v2).mp h
        exact hv2 ▸ Vec.parallel_zero_right v1
    rw [if_pos hpar]
    exact ⟨GeoErr.parallelErr, rfl, Or.inr rfl⟩

/-- Witness for C4: concrete parallel vectors are rejected. -/
theorem C4_witness :
    Vec.parallel ⟨1, 0, 0⟩ ⟨2, 0, 0⟩ ∧
      ∃ e, parallelogram ⟨0, 0, 0⟩ ⟨1, 0, 0⟩ ⟨2, 0, 0⟩ = .error e ∧
        (e = GeoErr.zeroLength ∨ e = GeoErr.parallelErr) :=
  ⟨by decide,
    C4_parallelogram_rejects_parallel_or_zero ⟨0, 0, 0⟩ ⟨1, 0, 0⟩ ⟨2, 0, 0⟩
      (Or.inl (by decide))⟩

/-- C5.  The claim says a containment test on an argument that is neither a
`Point` nor a `Segment` raises a NotImplemented-style error.  The source's
`else` branch instead RETURNS the `NotImplementedError` instance as the
method's value, and the `in` operator coerces that truthy object to the
verdict `True` — a containment verdict is produced and no error is
signalled. -/
theorem C5_contains_other_returns_object_no_raise (P : Poly) :
    containsDispatch P .other = .returnedNotImplErrObj ∧ inOp P .other = true :=
  ⟨rfl, rfl⟩

/-- C7.  `area()` is the triangle fan from `center_point`: the sum over
`i in [0, N)` of the Heron-formula area of the triangle
(`center_point`, `points[i]`, `points[(i+1) mod N]`). -/
theorem C7_area_is_centroid_heron_fan (P : Poly) :
    areaPoly P =
      ∑ i ∈ Finset.range P.points.length,
        get_triangle_area P.center_point (P.points.getD i dummyPoint)
          (P.points.getD ((i + 1) % P.points.length) dummyPoint) := by
  unfold areaPoly
  rw [foldl_add_range]
  refine Finset.sum_congr rfl fun i hi => ?_
  have hi' : i < P.points.length := Finset.mem_range.mp hi
  by_cases h : i = P.points.length - 1
  · subst h
    have h1 : P.points.length - 1 + 1 = P.points.length := by omega
    rw [if_pos rfl, h1, Nat.mod_self]
  · rw [if_neg h, Nat.mod_eq_of_lt (by omega)]

/-- C10.  Comparing a `ConvexPolygen` with a value of any other type via
`__eq__` or `eq_with_normal` returns `False` (no error raised: both methods
return a boolean in every branch). -/
theorem C10_eq_with_foreign_type_is_false (P : Poly) :
    eqPy P .foreign = false ∧ eqWithNormalPy P .foreign = false :=
  ⟨rfl, rfl⟩

/-! ### C2: the containment test -/

/-- The claim's edge test, following the claim's words literally:
`((p1 - p0) cross n) dot (q - p0) >= -eps`, with `n` the normalized plane
normal. -/
def claimEdgeTest (nrm : Vec) (q : Point) (e : Point × Point) : Prop :=
  -eps ≤ Vec.dot (Vec.cross (vsub e.1 e.2) nrm) (vsub e.1 q)

instance (nrm : Vec) (q : Point) (e : Point × Point) :
    Decidable (claimEdgeTest nrm q e) := by
  unfold claimEdgeTest; infer_instance

/-- The edge test the source actually computes (cross operands the other way
round): `(n cross (p1 - p0)) dot (q - p0) >= -eps`. -/
def edgeInwardTest (nrm : Vec) (q : Point) (e : Point × Point) : Prop :=
  -eps ≤ Vec.dot (vsub e.1 q) (Vec.cross nrm (vsub e.1 e.2))

instance (nrm : Vec) (q : Point) (e : Point × Point) :
    Decidable (edgeInwardTest nrm q e) := by
  unfold edgeInwardTest; infer_instance

/-- The short-circuiting edge loop answers `true` exactly when every edge
passes the inward test. -/
theorem containsLoop_eq_all (nrm : Vec) (q : Point) (l : List (Point × Point)) :
    containsLoop nrm q l = true ↔ ∀ e ∈ l, edgeInwardTest nrm q e := by
  induction l with
  | nil => simp [containsLoop]
  | cons e rest ih =>
    obtain ⟨p0, p1⟩ := e
    unfold containsLoop
    by_cases h : Vec.dot (vsub p0 q) (Vec.cross nrm (vsub p0 p1)) < -eps
    · rw [if_pos h]
      simp only [Bool.false_eq_true, false_iff]
      refine fun hall => absurd (hall (p0, p1) (List.mem_cons_self _ _)) ?_
      unfold edgeInwardTest
      exact not_le.mpr h
    · rw [if_neg h, ih]
      constructor
      · intro hall e' he'
        rcases List.mem_cons.mp he' with rfl | he'
        · unfold edgeInwardTest
          exact not_lt.mp h
        · exact hall e' he'
      · exact fun hall e' he' => hall e' (List.mem_cons_of_mem _ he')

/-- A unit square polygon state (vertices already in canonical order, plane
fitted from the first three, centroid at the mean), used as the concrete
input of several counterexamples and witnesses. -/
def sqPoly : Poly :=
  ⟨[⟨0, 0, 0⟩, ⟨2, 0, 0⟩, ⟨2, 2, 0⟩, ⟨0, 2, 0⟩],
    mkPlane ⟨0, 0, 0⟩ ⟨2, 0, 0⟩ ⟨2, 2, 0⟩,
    centerPoint [⟨0, 0, 0⟩, ⟨2, 0, 0⟩, ⟨2, 2, 0⟩, ⟨0, 2, 0⟩]⟩

/-- Counterexample to C2 as stated.  The claim's formula crosses
`(p1 - p0)` with `n` in that order; the code computes `n cross (p1 - p0)`,
the negation.  At the square's centre the code's containment test answers
`true`, yet the claim's right-hand side is false (the claimed edge test
fails at the very first edge), so the claimed equivalence is false at this
input. -/
theorem C2_counterexample :
    containsPoint sqPoly ⟨1, 1, 0⟩ = true ∧
      ¬(planeContains sqPoly.plane ⟨1, 1, 0⟩ ∧
          ∀ e ∈ edgePairs sqPoly.points,
            claimEdgeTest (vnormalize sqPoly.plane.n) ⟨1, 1, 0⟩ e) := by
  decide

/-- C2, amended: as the claim, with the operands of the cross product in the
order the source computes them (`n cross (p1 - p0)` instead of
`(p1 - p0) cross n`).  A point is contained iff it lies on the plane
(within tolerance) and every boundary edge passes the inward test (the loop
short-circuits on the first violated edge, see `containsLoop`); a segment is
contained iff both endpoints independently pass the point test. -/
theorem C2_contains_iff_amended (P : Poly) :
    (∀ q : Point,
        containsPoint P q = true ↔
          planeContains P.plane q ∧
            ∀ e ∈ edgePairs P.points, edgeInwardTest (vnormalize P.plane.n) q e) ∧
      (∀ s : Seg,
          containsSeg P s = true ↔
            containsPoint P s.start_point = true ∧ containsPoint P s.end_point = true) := by
  constructor
  · intro q
    unfold containsPoint
    rw [Bool.and_eq_true, decide_eq_true_eq, containsLoop_eq_all]
  · intro s
    unfold containsSeg
    rw [Bool.and_eq_true]

/-! ### Lemmas about `pydedup` and the angle dictionary -/

theorem mem_pydedupA {α : Type} [DecidableEq α] {a : α} (seen l : List α) :
    a ∈ pydedupA seen l ↔ a ∈ l ∧ a ∉ seen := by
  induction l generalizing seen with
  | nil => simp [pydedupA]
  | cons b l ih =>
    unfold pydedupA
    by_cases hb : b ∈ seen
    · rw [if_pos hb, ih]
      constructor
      · rintro ⟨h1, h2⟩
        exact ⟨List.mem_cons_of_mem _ h1, h2⟩
      · rintro ⟨h1, h2⟩
        rcases List.mem_cons.mp h1 with rfl | h1
        · exact absurd hb h2
        · exact ⟨h1, h2⟩
    · rw [if_neg hb]
      constructor
      · intro h
        rcases List.mem_cons.mp h with rfl | h
        · exact ⟨List.mem_cons_self _ _, hb⟩
        · obtain ⟨h1, h2⟩ := (ih (b :: seen)).mp h
          exact ⟨List.mem_cons_of_mem _ h1, fun hs => h2 (List.mem_cons_of_mem _ hs)⟩
      · rintro ⟨h1, h2⟩
        by_cases hab : a = b
        · subst hab
          exact List.mem_cons_self _ _
        · rcases List.mem_cons.mp h1 with rfl | h1
          · exact absurd rfl hab
          · refine List.mem_cons_of_mem _ ((ih (b :: seen)).mpr ⟨h1, fun hs => ?_⟩)
            rcases List.mem_cons.mp hs with h' | hs'
            · exact hab h'
            · exact h2 hs'

theorem mem_pydedup {α : Type} [DecidableEq α] {a : α} (l : List α) :
    a ∈ pydedup l ↔ a ∈ l := by
  unfold pydedup
  rw [mem_pydedupA]
  simp

theorem nodup_pydedupA {α : Type} [DecidableEq α] (seen l : List α) :
    (pydedupA seen l).Nodup := by
  induction l generalizing seen with
  | nil => exact List.nodup_nil
  | cons b l ih =>
    unfold pydedupA
    by_cases hb : b ∈ seen
    · rw [if_pos hb]; exact ih seen
    · rw [if_neg hb]
      refine List.nodup_cons.mpr ⟨fun hmem => ?_, ih (b :: seen)⟩
      exact ((mem_pydedupA _ _).mp hmem).2 (List.mem_cons_self _ _)

theorem nodup_pydedup {α : Type} [DecidableEq α] (l : List α) :
    (pydedup l).Nodup := nodup_pydedupA [] l

theorem pydedupA_length_le {α : Type} [DecidableEq α] (seen l : List α) :
    (pydedupA seen l).length ≤ l.length := by
  induction l generalizing seen with
  | nil => exact Nat.le_refl 0
  | cons b l ih =>
    unfold pydedupA
    by_cases hb : b ∈ seen
    · rw [if_pos hb]
      exact Nat.le_succ_of_le (ih seen)
    · rw [if_neg hb]
      simpa using ih (b :: seen)

theorem pydedupA_length_lt_of_mem {α : Type} [DecidableEq α] {a : α}
    (seen l : List α) (hl : a ∈ l) (hs : a ∈ seen) :
    (pydedupA seen l).length < l.length := by
  induction l generalizing seen with
  | nil => cases hl
  | cons b l ih =>
    unfold pydedupA
    by_cases hb : b ∈ seen
    · rw [if_pos hb]
      exact Nat.lt_succ_of_le (pydedupA_length_le seen l)
    · rw [if_neg hb]
      have hba : b ≠ a := fun h => hb (h ▸ hs)
      have hal : a ∈ l := by
        rcases List.mem_cons.mp hl with rfl | h
        · exact absurd rfl hba
        · exact h
      simpa using ih (b :: seen) hal (List.mem_cons_of_mem _ hs)

theorem pydedupA_length_lt_of_not_nodup {α : Type} [DecidableEq α]
    (seen l : List α) (h : ¬l.Nodup) :
    (pydedupA seen l).length < l.length := by
  induction l generalizing seen with
  | nil => exact absurd List.nodup_nil h
  | cons b l ih =>
    unfold pydedupA
    by_cases hb : b ∈ seen
    · rw [if_pos hb]
      exact Nat.lt_succ_of_le (pydedupA_length_le seen l)
    · rw [if_neg hb]
      by_cases hbl : b ∈ l
      · simpa using pydedupA_length_lt_of_mem (b :: seen) l hbl (List.mem_cons_self _ _)
      · have hnl : ¬l.Nodup := fun hn => h (List.nodup_cons.mpr ⟨hbl, hn⟩)
        simpa using ih (b :: seen) hnl

theorem pydedup_length_lt_of_not_nodup {α : Type} [DecidableEq α]
    (l : List α) (h : ¬l.Nodup) :
    (pydedup l).length < l.length := pydedupA_length_lt_of_not_nodup [] l h

theorem dict_foldl_acc_of_not_mem (k : ℕ × ℚ) (prs : List ((ℕ × ℚ) × Point))
    (acc : Option Point) (h : ∀ e ∈ prs, e.1 ≠ k) :
    prs.foldl (fun acc e => if e.1 = k then some e.2 else acc) acc = acc := by
  induction prs generalizing acc with
  | nil => rfl
  | cons e rest ih =>
    rw [List.foldl_cons, if_neg (h e (List.mem_cons_self _ _))]
    exact ih acc fun e' he' => h e' (List.mem_cons_of_mem _ he')

theorem dict_foldl_cases (k : ℕ × ℚ) (prs : List ((ℕ × ℚ) × Point))
    (acc : Option Point) :
    prs.foldl (fun acc e => if e.1 = k then some e.2 else acc) acc = acc ∨
      ∃ e ∈ prs, e.1 = k ∧
        prs.foldl (fun acc e => if e.1 = k then some e.2 else acc) acc = some e.2 := by
  induction prs generalizing acc with
  | nil => exact Or.inl rfl
  | cons e rest ih =>
    rw [List.foldl_cons]
    by_cases he : e.1 = k
    · rw [if_pos he]
      rcases ih (some e.2) with h | ⟨e', he', hk', heq⟩
      · exact Or.inr ⟨e, List.mem_cons_self _ _, he, h⟩
      · exact Or.inr ⟨e', List.mem_cons_of_mem _ he', hk', heq⟩
    · rw [if_neg he]
      rcases ih acc with h | ⟨e', he', hk', heq⟩
      · exact Or.inl h
      · exact Or.inr ⟨e', List.mem_cons_of_mem _ he', hk', heq⟩

/-- The dictionary keeps the LAST point inserted under a key: if `p` carries
key `k` and nothing after `p` does, looking up `k` yields `p`. -/
theorem dictGet_last (k : ℕ × ℚ) (f : Point → ℕ × ℚ) (l1 l2 : List Point)
    (p : Point) (hk : f p = k) (h2 : ∀ q ∈ l2, f q ≠ k) :
    dictGet k ((l1 ++ p :: l2).map fun q => (f q, q)) = p := by
  unfold dictGet
  rw [List.map_append, List.map_cons, List.foldl_append, List.foldl_cons, if_pos hk]
  rw [dict_foldl_acc_of_not_mem k _ (some p)]
  · rfl
  · intro e he
    rcases List.mem_map.mp he with ⟨q, hq, rfl⟩
    exact h2 q hq

/-- Looking up a key that does occur yields a point of the list carrying
that key. -/
theorem dictGet_mem (k : ℕ × ℚ) (f : Point → ℕ × ℚ) (pts : List Point)
    (hk : k ∈ pts.map f) :
    dictGet k (pts.map fun q => (f q, q)) ∈ pts ∧
      f (dictGet k (pts.map fun q => (f q, q))) = k := by
  unfold dictGet
  rcases dict_foldl_cases k (pts.map fun q => (f q, q)) none with h | ⟨e, he, hek, heq⟩
  · exfalso
    rcases List.mem_map.mp hk with ⟨p, hp, rfl⟩
    obtain ⟨l1, l2, rfl⟩ := List.append_of_mem hp
    rw [List.map_append, List.map_cons, List.foldl_append, List.foldl_cons,
      if_pos rfl] at h
    rcases dict_foldl_cases (f p) (l2.map fun q => (f q, q)) (some p) with
      h' | ⟨e', _, _, h'⟩
    · rw [h'] at h; cases h
    · rw [h'] at h; cases h
  · rcases List.mem_map.mp he with ⟨q, hq, rfl⟩
    rw [heq]
    exact ⟨hq, hek⟩

/-! ### C9: angle-key ties overwrite in the dictionary -/

/-- C9.  During the angular sort, when the points at positions `i < j` of the
(deduplicated) point list carry exactly equal angle keys — `j` being the last
position with that key — the later-visited point overwrites the earlier one
in the angle-to-point dictionary: the sort succeeds, the canonical list is
strictly shorter than the input (a vertex is silently omitted), the
earlier point is gone and the later one is kept. -/
theorem C9_equal_angle_keys_drop_earlier_point
    (pl : Plane) (center : Point) (pts : List Point) (i j : ℕ)
    (hij : i < j) (hj : j < pts.length) (hnd : pts.Nodup)
    (hcop : ∀ p ∈ pts, planeContains pl p)
    (hkey : sortKey pl center (pts.headD dummyPoint) (pts.getD i dummyPoint) =
      sortKey pl center (pts.headD dummyPoint) (pts.getD j dummyPoint))
    (hlast : ∀ m, m < pts.length →
      sortKey pl center (pts.headD dummyPoint) (pts.getD m dummyPoint) =
        sortKey pl center (pts.headD dummyPoint) (pts.getD i dummyPoint) →
      m ≤ j) :
    ∃ canon, checkAndSort pl center pts = .ok canon ∧
      canon.length < pts.length ∧
      pts.getD i dummyPoint ∉ canon ∧
      pts.getD j dummyPoint ∈ canon := by
  have hi : i < pts.length := lt_trans hij hj
  set f : Point → ℕ × ℚ := sortKey pl center (pts.headD dummyPoint) with hf
  set pairs : List ((ℕ × ℚ) × Point) := pts.map fun p => (f p, p) with hpairs
  set keys : List (ℕ × ℚ) := pydedup (sortKeys pl center pts) with hkeys
  set canon : List Point :=
    (List.insertionSort keyLE keys).map (fun k => dictGet k pairs) with hcanon
  have hsk : sortKeys pl center pts = pts.map f := rfl
  have hrun : checkAndSort pl center pts = .ok canon := by
    unfold checkAndSort
    rw [if_pos hcop]
  -- getD agrees with getElem in range
  have hgdi : pts.getD i dummyPoint = pts[i] := List.getD_eq_getElem pts dummyPoint hi
  have hgdj : pts.getD j dummyPoint = pts[j] := List.getD_eq_getElem pts dummyPoint hj
  -- the two tied points are distinct
  have hne : pts[i] ≠ pts[j] := by
    intro he
    have hinj := List.nodup_iff_injective_get.mp hnd
    have : (⟨i, hi⟩ : Fin pts.length) = ⟨j, hj⟩ := by
      apply hinj
      simpa [List.get_eq_getElem] using he
    exact absurd (congrArg Fin.val this) (Nat.ne_of_lt hij)
  -- the key list has a duplicate
  have hkeydup : ¬(pts.map f).Nodup := by
    intro hnd'
    have hinj := List.nodup_iff_injective_get.mp hnd'
    have hlen : pts.length = (pts.map f).length := (List.length_map pts f).symm
    have : (⟨i, hlen ▸ hi⟩ : Fin (pts.map f).length) = ⟨j, hlen ▸ hj⟩ := by
      apply hinj
      simp only [List.get_eq_getElem, List.getElem_map]
      rw [← hgdi, ← hgdj]
      exact hkey
    exact absurd (congrArg Fin.val this) (Nat.ne_of_lt hij)
  have hlenlt : canon.length < pts.length := by
    rw [hcanon, List.length_map, (List.perm_insertionSort keyLE keys).length_eq, hkeys, hsk]
    calc (pydedup (pts.map f)).length < (pts.map f).length :=
          pydedup_length_lt_of_not_nodup _ hkeydup
      _ = pts.length := List.length_map pts f
  -- the shared key
  have hkij : f pts[i] = f pts[j] := by rw [← hgdi, ← hgdj]; exact hkey
  -- decompose pts at position j
  have hsplit : pts = pts.take j ++ pts[j] :: pts.drop (j + 1) := by
    conv_lhs => rw [← List.take_append_drop j pts]
    rw [List.drop_eq_getElem_cons hj]
  -- nothing after position j carries the shared key
  have hafter : ∀ q ∈ pts.drop (j + 1), f q ≠ f pts[j] := by
    intro q hq hfq
    rcases List.mem_iff_get.mp hq with ⟨⟨t, ht⟩, rfl⟩
    have hlt : j + 1 + t < pts.length := by
      have := ht
      rw [List.length_drop] at this
      omega
    have hgd : (pts.drop (j + 1)).get ⟨t, ht⟩ = pts[j + 1 + t] := by
      simp [List.get_eq_getElem, List.getElem_drop]
    have hm := hlast (j + 1 + t) hlt
    rw [List.getD_eq_getElem pts dummyPoint hlt, ← hgd, hgdi] at hm
    have := hm (by rw [hfq, ← hkij])
    omega
  -- the dictionary maps the shared key to the later point
  have hdict : dictGet (f pts[j]) pairs = pts[j] := by
    have hpairs2 :
        pairs = (pts.take j ++ pts[j] :: pts.drop (j + 1)).map fun p => (f p, p) :=
      hpairs.trans (congrArg (List.map fun p => (f p, p)) hsplit)
    rw [hpairs2]
    exact dictGet_last (f pts[j]) f (pts.take j) (pts.drop (j + 1)) pts[j] rfl hafter
  -- the later point is kept
  have hjmem : pts.getD j dummyPoint ∈ canon := by
    rw [hgdj, hcanon]
    have hkmem : f pts[j] ∈ List.insertionSort keyLE keys := by
      rw [(List.perm_insertionSort keyLE keys).mem_iff, hkeys, hsk, mem_pydedup]
      exact List.mem_map_of_mem f (List.getElem_mem hj)
    have := List.mem_map_of_mem (fun k => dictGet k pairs) hkmem
    simpa [hdict] using this
  -- the earlier point is dropped
  have himem : pts.getD i dummyPoint ∉ canon := by
    rw [hgdi, hcanon]
    intro hmem
    rcases List.mem_map.mp hmem with ⟨k', hk', heq⟩
    have hk'keys : k' ∈ pts.map f := by
      rw [← hsk, ← mem_pydedup (sortKeys pl center pts), ← hkeys]
      exact (List.perm_insertionSort keyLE keys).mem_iff.mp hk'
    have hdm := dictGet_mem k' f pts hk'keys
    rw [hpairs] at heq
    rw [heq] at hdm
    have hk'eq : k' = f pts[j] := by rw [← hdm.2, hkij]
    rw [hk'eq] at heq
    rw [← hpairs] at heq
    rw [hdict] at heq
    exact hne heq.symm
  exact ⟨canon, hrun, hlenlt, himem, hjmem⟩

/-- A point list with an exact angle tie: the vertex `(3, 3, 0)` lies on the
ray from the centroid through the square vertex `(4, 4, 0)`, so both get the
same angle key. -/
def tiePts : List Point := [⟨0, 0, 0⟩, ⟨4, 0, 0⟩, ⟨4, 4, 0⟩, ⟨0, 4, 0⟩, ⟨3, 3, 0⟩]

/-- The plane fitted from the first three points of `tiePts`. -/
def tiePlane : Plane := mkPlane ⟨0, 0, 0⟩ ⟨4, 0, 0⟩ ⟨4, 4, 0⟩

/-- The centroid of `tiePts`. -/
def tieCenter : Point := centerPoint tiePts

/-- Witness for C9: on `tiePts` the tied pair is positions 2 and 4; the sort
keeps `(3, 3, 0)` (visited later) and drops `(4, 4, 0)`. -/
theorem C9_witness :
    ∃ canon, checkAndSort tiePlane tieCenter tiePts = .ok canon ∧
      canon.length < tiePts.length ∧
      tiePts.getD 2 dummyPoint ∉ canon ∧
      tiePts.getD 4 dummyPoint ∈ canon :=
  C9_equal_angle_keys_drop_earlier_point tiePlane tieCenter tiePts 2 4
    (by decide) (by decide) (by decide) (by decide) (by decide) (by decide)

/-! ### Vector algebra lemmas -/

theorem Vec.ext_comp {v w : Vec} (hx : v.x = w.x) (hy : v.y = w.y)
    (hz : v.z = w.z) : v = w := by
  cases v; cases w; simp_all

theorem Vec.neg_eq_smul (v : Vec) : v.neg = Vec.smul (-1) v := by
  apply Vec.ext_comp <;> simp [Vec.neg, Vec.smul]

theorem Vec.smul_smul (s t : ℚ) (v : Vec) :
    Vec.smul s (Vec.smul t v) = Vec.smul (s * t) v := by
  apply Vec.ext_comp <;> simp [Vec.smul] <;> ring

theorem Vec.smul_ne_zero {t : ℚ} {v : Vec} (ht : t ≠ 0) (hv : v ≠ Vec.zero) :
    Vec.smul t v ≠ Vec.zero := by
  intro h
  refine hv (Vec.ext_comp ?_ ?_ ?_) <;>
    [have := congrArg Vec.x h; have := congrArg Vec.y h; have := congrArg Vec.z h] <;>
    simp only [Vec.smul, Vec.zero] at this ⊢ <;>
    exact (mul_eq_zero.mp this).resolve_left ht

/-- The triple-product expansion `n x (u x w) = (n . w) u - (n . u) w`. -/
theorem Vec.cross_cross (n u w : Vec) :
    Vec.cross n (Vec.cross u w) =
      Vec.sub (Vec.smul (Vec.dot n w) u) (Vec.smul (Vec.dot n u) w) := by
  apply Vec.ext_comp <;> simp [Vec.cross, Vec.sub, Vec.smul, Vec.dot] <;> ring

/-- In 3D, a vector whose cross product with a nonzero `v` vanishes is a
scalar multiple of `v`. -/
theorem Vec.exists_smul_of_cross_eq_zero {v w : Vec} (hv : v ≠ Vec.zero)
    (h : Vec.cross v w = Vec.zero) : ∃ t : ℚ, w = Vec.smul t v := by
  have h1 : v.y * w.z - v.z * w.y = 0 := congrArg Vec.x h
  have h2 : v.z * w.x - v.x * w.z = 0 := congrArg Vec.y h
  have h3 : v.x * w.y - v.y * w.x = 0 := congrArg Vec.z h
  by_cases hx : v.x ≠ 0
  · refine ⟨w.x / v.x, Vec.ext_comp ?_ ?_ ?_⟩ <;> simp only [Vec.smul] <;>
      field_simp <;> nlinarith [h1, h2, h3]
  · by_cases hy : v.y ≠ 0
    · refine ⟨w.y / v.y, Vec.ext_comp ?_ ?_ ?_⟩ <;> simp only [Vec.smul] <;>
        field_simp <;> nlinarith [h1, h2, h3]
    · have hz : v.z ≠ 0 := by
        intro hz
        push_neg at hx hy
        exact hv (Vec.ext_comp (by simpa using hx) (by simpa using hy)
          (by simpa using hz))
      refine ⟨w.z / v.z, Vec.ext_comp ?_ ?_ ?_⟩ <;> simp only [Vec.smul] <;>
        field_simp <;> nlinarith [h1, h2, h3]

theorem Vec.dot_vsub (n : Vec) (a b : Point) :
    Vec.dot n (vsub a b) = Vec.dot n b.pv - Vec.dot n a.pv := by
  simp [Vec.dot, vsub, Point.pv]
  ring

theorem Vec.dot_smul_left (t : ℚ) (v w : Vec) :
    Vec.dot (Vec.smul t v) w = t * Vec.dot v w := by
  simp [Vec.dot, Vec.smul]
  ring

theorem Vec.neg_ne_zero {v : Vec} (hv : v ≠ Vec.zero) : v.neg ≠ Vec.zero := by
  rw [Vec.neg_eq_smul]
  exact Vec.smul_ne_zero (by norm_num) hv

/-! ### The canonical ray representative and the plane fingerprint -/

theorem lead_ne_zero {v : Vec} (hv : v ≠ Vec.zero) : lead v ≠ 0 := by
  unfold lead
  by_cases hx : v.x ≠ 0
  · rwa [if_pos hx]
  · rw [if_neg hx]
    by_cases hy : v.y ≠ 0
    · rwa [if_pos hy]
    · rw [if_neg hy]
      push_neg at hx hy
      exact fun hz => hv (Vec.ext_comp (by simpa using hx) (by simpa using hy)
        (by simpa using hz))

theorem qabs_ne_zero {q : ℚ} (h : q ≠ 0) : qabs q ≠ 0 := by
  rw [qabs_eq_abs]
  exact abs_ne_zero.mpr h

theorem lead_smul {t : ℚ} (ht : t ≠ 0) (v : Vec) :
    lead (Vec.smul t v) = t * lead v := by
  unfold lead
  by_cases hx : v.x = 0
  · by_cases hy : v.y = 0
    · simp [Vec.smul, hx, hy]
    · simp [Vec.smul, hx, hy, mul_ne_zero ht hy]
  · simp [Vec.smul, hx, mul_ne_zero ht hx]

theorem canonDir_smul_pos {t : ℚ} {v : Vec} (ht : 0 < t) (hv : v ≠ Vec.zero) :
    canonDir (Vec.smul t v) = canonDir v := by
  unfold canonDir
  rw [lead_smul (ne_of_gt ht), Vec.smul_smul]
  congr 1
  rw [qabs_eq_abs, qabs_eq_abs, abs_mul, abs_of_pos ht]
  have hl : |lead v| ≠ 0 := abs_ne_zero.mpr (lead_ne_zero hv)
  field_simp

theorem canonDir_smul_neg {t : ℚ} {v : Vec} (ht : t < 0) (hv : v ≠ Vec.zero) :
    canonDir (Vec.smul t v) = (canonDir v).neg := by
  unfold canonDir
  rw [lead_smul (ne_of_lt ht), Vec.smul_smul, Vec.neg_eq_smul, Vec.smul_smul]
  congr 1
  rw [qabs_eq_abs, qabs_eq_abs, abs_mul, abs_of_neg ht]
  have hl : |lead v| ≠ 0 := abs_ne_zero.mpr (lead_ne_zero hv)
  have ht' : t ≠ 0 := ne_of_lt ht
  field_simp

theorem canonDir_neg (v : Vec) (hv : v ≠ Vec.zero) :
    canonDir v.neg = (canonDir v).neg := by
  rw [Vec.neg_eq_smul]
  exact canonDir_smul_neg (by norm_num) hv

theorem canonDir_ne_zero {v : Vec} (hv : v ≠ Vec.zero) :
    canonDir v ≠ Vec.zero := by
  intro h
  have hq : qabs (lead v) ≠ 0 := qabs_ne_zero (lead_ne_zero hv)
  have hs : (1 : ℚ) / qabs (lead v) ≠ 0 := one_div_ne_zero hq
  refine hv (Vec.ext_comp ?_ ?_ ?_) <;>
    [have hc := congrArg Vec.x h; have hc := congrArg Vec.y h;
      have hc := congrArg Vec.z h] <;>
    simp only [canonDir, Vec.smul, Vec.zero] at hc ⊢ <;>
    exact (mul_eq_zero.mp hc).resolve_left hs

/-- Negating each entry of a plane fingerprint (the fingerprint of the
negated plane). -/
def negCF4 (t : ℚ × ℚ × ℚ × ℚ) : ℚ × ℚ × ℚ × ℚ :=
  (-t.1, -t.2.1, -t.2.2.1, -t.2.2.2)

theorem negCF4_negCF4 (t : ℚ × ℚ × ℚ × ℚ) : negCF4 (negCF4 t) = t := by
  simp [negCF4]

theorem canonForm_negP (pl : Plane) (hn : pl.n ≠ Vec.zero) :
    canonForm pl.negP = (canonForm pl).map negCF4 := by
  unfold canonForm Plane.negP
  rw [if_neg (by simpa using Vec.neg_ne_zero hn), if_neg (by simpa using hn)]
  simp only [Option.map_some', negCF4]
  have hdir : canonDir pl.n.neg = (canonDir pl.n).neg := canonDir_neg pl.n hn
  have hlead : lead pl.n.neg = -lead pl.n := by
    rw [Vec.neg_eq_smul, lead_smul (by norm_num)]
    ring
  have hdot : Vec.dot pl.n.neg pl.p.pv = -Vec.dot pl.n pl.p.pv := by
    rw [Vec.neg_eq_smul, Vec.dot_smul_left]
    ring
  rw [hdir, hdot, hlead]
  have habs : qabs (-lead pl.n) = qabs (lead pl.n) := by
    rw [qabs_eq_abs, qabs_eq_abs, abs_neg]
  rw [habs]
  simp [Vec.neg, neg_div]

/-- The fingerprint of a plane through a coplanar base point whose normal is
a nonzero multiple `t` of `pl.n`: for positive `t` it is `pl`'s fingerprint,
for negative `t` the negated plane's. -/
theorem canonForm_parallel_base (pl : Plane) (a : Point) (t : ℚ) (ht : t ≠ 0)
    (hn : pl.n ≠ Vec.zero)
    (hbase : Vec.dot pl.n a.pv = Vec.dot pl.n pl.p.pv) :
    canonForm ⟨a, Vec.smul t pl.n⟩ =
      if 0 < t then canonForm pl else canonForm pl.negP := by
  have hn' : Vec.smul t pl.n ≠ Vec.zero := Vec.smul_ne_zero ht hn
  have hlead : lead (Vec.smul t pl.n) = t * lead pl.n := lead_smul ht pl.n
  have hdot : Vec.dot (Vec.smul t pl.n) a.pv = t * Vec.dot pl.n pl.p.pv := by
    rw [Vec.dot_smul_left, hbase]
  have hlabs : |lead pl.n| ≠ 0 := abs_ne_zero.mpr (lead_ne_zero hn)
  have hq : qabs (lead pl.n) ≠ 0 := qabs_ne_zero (lead_ne_zero hn)
  rcases lt_or_gt_of_ne ht with htn | htp
  · rw [if_neg (not_lt.mpr (le_of_lt htn))]
    rw [canonForm_negP pl hn]
    unfold canonForm
    rw [if_neg (by simpa using hn'), if_neg (by simpa using hn)]
    simp only [Option.map_some']
    have hdir : canonDir (Vec.smul t pl.n) = (canonDir pl.n).neg :=
      canonDir_smul_neg htn hn
    have habs : qabs (t * lead pl.n) = -t * qabs (lead pl.n) := by
      rw [qabs_eq_abs, qabs_eq_abs, abs_mul, abs_of_neg htn]
    have hoff : Vec.dot (Vec.smul t pl.n) a.pv / qabs (lead (Vec.smul t pl.n)) =
        -(Vec.dot pl.n pl.p.pv / qabs (lead pl.n)) := by
      rw [hdot, hlead, habs]
      have ht' : -t ≠ 0 := by simpa using ht
      field_simp
      ring
    rw [hdir, hoff]
    simp [negCF4, Vec.neg]
  · rw [if_pos htp]
    unfold canonForm
    rw [if_neg (by simpa using hn'), if_neg (by simpa using hn)]
    have hdir : canonDir (Vec.smul t pl.n) = canonDir pl.n :=
      canonDir_smul_pos htp hn
    have habs : qabs (t * lead pl.n) = t * qabs (lead pl.n) := by
      rw [qabs_eq_abs, qabs_eq_abs, abs_mul, abs_of_pos htp]
    have hoff : Vec.dot (Vec.smul t pl.n) a.pv / qabs (lead (Vec.smul t pl.n)) =
        Vec.dot pl.n pl.p.pv / qabs (lead pl.n) := by
      rw [hdot, hlead, habs, mul_div_mul_left _ _ (ne_of_gt htp)]
    rw [hdir, hoff]

theorem pyHashPlane_congr {a b : Plane} (h : canonForm a = canonForm b) :
    pyHashPlane a = pyHashPlane b := by
  unfold pyHashPlane
  rw [h]

theorem pyHashPlane_eq_iff (a b : Plane) :
    pyHashPlane a = pyHashPlane b ↔ canonForm a = canonForm b := by
  unfold pyHashPlane
  constructor
  · intro h
    exact Encodable.encode_injective (by exact_mod_cast h)
  · intro h
    rw [h]

theorem Plane.negP_negP (pl : Plane) : pl.negP.negP = pl := by
  unfold Plane.negP Vec.neg
  cases pl with
  | mk p n => simp

theorem canonForm_negP_negCF (pl : Plane) (hn : pl.n ≠ Vec.zero) :
    canonForm pl.negP.negP = canonForm pl := by
  rw [Plane.negP_negP]

/-- A plane and its negation have different fingerprints. -/
theorem canonForm_negP_ne (pl : Plane) (hn : pl.n ≠ Vec.zero) :
    canonForm pl.negP ≠ canonForm pl := by
  rw [canonForm_negP pl hn]
  unfold canonForm
  rw [if_neg (by simpa using hn)]
  simp only [Option.map_some']
  intro h
  have h' := Option.some.inj h
  have ha := congrArg (fun p : ℚ × ℚ × ℚ × ℚ => p.1) h'
  have hb := congrArg (fun p : ℚ × ℚ × ℚ × ℚ => p.2.1) h'
  have hc := congrArg (fun p : ℚ × ℚ × ℚ × ℚ => p.2.2.1) h'
  simp only [negCF4] at ha hb hc
  refine canonDir_ne_zero hn (Vec.ext_comp ?_ ?_ ?_) <;>
    simp only [Vec.zero] <;> linarith

/-- The unordered pair of a plane's hash and its negation's hash (recorded
in `__hash__` through the symmetric sum and product) depends only on the
plane's unoriented fingerprint. -/
theorem planeHash_pair_eq (π π' : Plane) (hn : π.n ≠ Vec.zero)
    (hn' : π'.n ≠ Vec.zero)
    (h : canonForm π' = canonForm π ∨ canonForm π' = canonForm π.negP) :
    pyHashPlane π' + pyHashPlane π'.negP = pyHashPlane π + pyHashPlane π.negP ∧
      pyHashPlane π' * pyHashPlane π'.negP = pyHashPlane π * pyHashPlane π.negP := by
  rcases h with h | h
  · have h2 : canonForm π'.negP = canonForm π.negP := by
      rw [canonForm_negP π' hn', canonForm_negP π hn, h]
    rw [pyHashPlane_congr h, pyHashPlane_congr h2]
    exact ⟨rfl, rfl⟩
  · have h2 : canonForm π'.negP = canonForm π := by
      rw [canonForm_negP π' hn', h, canonForm_negP π hn]
      cases canonForm π <;> simp [negCF4_negCF4]
    rw [pyHashPlane_congr h, pyHashPlane_congr h2]
    exact ⟨add_comm _ _, mul_comm _ _⟩

/-! ### Permutation helpers -/

theorem pydedupA_eq_self {α : Type} [DecidableEq α] (seen l : List α)
    (h : l.Nodup) (hd : ∀ a ∈ l, a ∉ seen) : pydedupA seen l = l := by
  induction l generalizing seen with
  | nil => rfl
  | cons a l ih =>
    unfold pydedupA
    rw [if_neg (hd a (List.mem_cons_self _ _))]
    congr 1
    refine ih (a :: seen) (List.nodup_cons.mp h).2 fun b hb hbs => ?_
    rcases List.mem_cons.mp hbs with rfl | hbs
    · exact (List.nodup_cons.mp h).1 hb
    · exact hd b (List.mem_cons_of_mem _ hb) hbs

theorem pydedup_eq_self_of_nodup {α : Type} [DecidableEq α] (l : List α)
    (h : l.Nodup) : pydedup l = l :=
  pydedupA_eq_self [] l h (by simp)

theorem pydedup_perm_of_perm {α : Type} [DecidableEq α] {l1 l2 : List α}
    (h : l1.Perm l2) : (pydedup l1).Perm (pydedup l2) := by
  refine List.Subperm.antisymm ?_ ?_ <;>
    refine List.subperm_of_subset (nodup_pydedup _) fun a ha => ?_
  · exact (mem_pydedup l2).mpr (h.mem_iff.mp ((mem_pydedup l1).mp ha))
  · exact (mem_pydedup l1).mpr (h.mem_iff.mpr ((mem_pydedup l2).mp ha))

theorem centerPoint_perm {l1 l2 : List Point} (h : l1.Perm l2) :
    centerPoint l1 = centerPoint l2 := by
  unfold centerPoint
  rw [(h.map Point.x).sum_eq, (h.map Point.y).sum_eq, (h.map Point.z).sum_eq,
    h.length_eq]

theorem pointHashSum_perm {l1 l2 : List Point} (h : l1.Perm l2) :
    pointHashSum l1 = pointHashSum l2 :=
  (h.map pyHashPoint).sum_eq

/-- With no key collisions, looking a point's key up in the dictionary
returns that point. -/
theorem dictGet_self (f : Point → ℕ × ℚ) (pts : List Point)
    (hknd : (pts.map f).Nodup) {p : Point} (hp : p ∈ pts) :
    dictGet (f p) (pts.map fun q => (f q, q)) = p := by
  obtain ⟨l1, l2, rfl⟩ := List.append_of_mem hp
  have hsub : List.Sublist (f p :: l2.map f) ((l1 ++ p :: l2).map f) := by
    rw [List.map_append, List.map_cons]
    exact List.sublist_append_right _ _
  have hnd2 : (f p :: l2.map f).Nodup := hknd.sublist hsub
  have hnotin : f p ∉ l2.map f := (List.nodup_cons.mp hnd2).1
  refine dictGet_last (f p) f l1 l2 p rfl fun q hq hfq => ?_
  exact hnotin (hfq ▸ List.mem_map_of_mem f hq)

/-- With all points on the plane, distinct points and no angle-key ties,
`_check_and_sort_points` succeeds and its canonical list is a permutation of
the input. -/
theorem checkAndSort_perm (pl : Plane) (center : Point) (pts : List Point)
    (hcop : ∀ p ∈ pts, planeContains pl p) (hnd : pts.Nodup)
    (hknd : (sortKeys pl center pts).Nodup) :
    ∃ canon, checkAndSort pl center pts = .ok canon ∧ canon.Perm pts := by
  have hsk : sortKeys pl center pts =
      pts.map (sortKey pl center (pts.headD dummyPoint)) := rfl
  have hkeys : pydedup (sortKeys pl center pts) =
      pts.map (sortKey pl center (pts.headD dummyPoint)) := by
    rw [hsk] at hknd ⊢
    exact pydedup_eq_self_of_nodup _ hknd
  refine ⟨(List.insertionSort keyLE (pydedup (sortKeys pl center pts))).map
      (fun k => dictGet k
        (pts.map fun p => (sortKey pl center (pts.headD dummyPoint) p, p))), ?_, ?_⟩
  · unfold checkAndSort
    rw [if_pos hcop]
  · rw [hkeys]
    have hperm := (List.perm_insertionSort keyLE
      (pts.map (sortKey pl center (pts.headD dummyPoint)))).map
      (fun k => dictGet k
        (pts.map fun p => (sortKey pl center (pts.headD dummyPoint) p, p)))
    refine hperm.trans ?_
    rw [List.map_map]
    have hid : pts.map ((fun k => dictGet k
        (pts.map fun p => (sortKey pl center (pts.headD dummyPoint) p, p))) ∘
          (sortKey pl center (pts.headD dummyPoint))) = pts := by
      have := List.map_congr_left (l := pts)
        (f := (fun k => dictGet k
          (pts.map fun p => (sortKey pl center (pts.headD dummyPoint) p, p))) ∘
            (sortKey pl center (pts.headD dummyPoint))) (g := id) ?_
      · rw [this, List.map_id]
      · intro p hp
        exact dictGet_self (sortKey pl center (pts.headD dummyPoint)) pts
          (hsk ▸ hknd) hp
    rw [hid]

theorem exists_three_cons {l : List Point} (h : 3 ≤ l.length) :
    ∃ a b c rest, l = a :: b :: c :: rest := by
  cases l with
  | nil => simp at h
  | cons a l1 =>
    cases l1 with
    | nil => simp at h
    | cons b l2 =>
      cases l2 with
      | nil => simp at h
      | cons c rest => exact ⟨a, b, c, rest, rfl⟩

theorem qabs_zero : qabs 0 = 0 := rfl

/-! ### C6: a polygon equals its negation under plain equality, not under
`eq_with_normal` -/

/-- C6.  For a `ConvexPolygen` state satisfying the construction invariants —
distinct points, at least three of them, a nondegenerate stored normal, all
points exactly on the stored plane, the plane refitted from the first three
canonical points having its normal a positive multiple `t` of the stored
normal (the canonical order is counter-clockwise for that normal), and no
angle-key ties in the reversed-orientation sort — the negation `-p` is built
successfully, `p == -p` holds under plain `__eq__` (the symmetrized
plane-hash sum and product are identical), and `eq_with_normal(p, -p)` is
false (the unsymmetrized plane hash differs). -/
theorem C6_neg_eq_plain_but_not_with_normal (P : Poly)
    (hnd : P.points.Nodup) (hlen : 3 ≤ P.points.length)
    (hn : P.plane.n ≠ Vec.zero)
    (hcop : ∀ q ∈ P.points, Vec.dot P.plane.n q.pv = Vec.dot P.plane.n P.plane.p.pv)
    (t : ℚ) (ht : 0 < t)
    (hrefit : (mkPlane (P.points.getD 0 dummyPoint) (P.points.getD 1 dummyPoint)
      (P.points.getD 2 dummyPoint)).n = Vec.smul t P.plane.n)
    (hknd : (sortKeys (Plane.negP (mkPlane (P.points.getD 0 dummyPoint)
        (P.points.getD 1 dummyPoint) (P.points.getD 2 dummyPoint)))
      (centerPoint P.points) P.points).Nodup) :
    ∃ Q, negPoly P = .ok Q ∧ eqPy P (.polyArg Q) = true ∧
      eqWithNormalPy P (.polyArg Q) = false := by
  obtain ⟨p0, p1, p2, rest, hpts⟩ := exists_three_cons hlen
  rw [hpts] at hknd hrefit
  simp only [List.getD_cons_zero, List.getD_cons_succ] at hknd hrefit
  have hmkn : (mkPlane p0 p1 p2).n ≠ Vec.zero := by
    rw [hrefit]
    exact Vec.smul_ne_zero (ne_of_gt ht) hn
  have hmk : mkPlane p0 p1 p2 = ⟨p0, Vec.smul t P.plane.n⟩ := by
    rw [← hrefit]
    rfl
  have hp0 : p0 ∈ P.points := by rw [hpts]; exact List.mem_cons_self _ _
  have hbase : Vec.dot P.plane.n p0.pv = Vec.dot P.plane.n P.plane.p.pv := hcop p0 hp0
  -- the refitted plane has the same fingerprint as the stored one
  have cf_mk : canonForm (mkPlane p0 p1 p2) = canonForm P.plane := by
    rw [hmk, canonForm_parallel_base P.plane p0 t (ne_of_gt ht) hn hbase, if_pos ht]
  -- fingerprint of the reversed plane
  have cf_neg : canonForm (mkPlane p0 p1 p2).negP = canonForm P.plane.negP := by
    rw [canonForm_negP _ hmkn, canonForm_negP _ hn, cf_mk]
  -- every point of the polygon lies (exactly) on the reversed refitted plane
  have hcop' : ∀ q ∈ p0 :: p1 :: p2 :: rest,
      planeContains (Plane.negP (mkPlane p0 p1 p2)) q := by
    intro q hq
    have hq' : q ∈ P.points := by rw [hpts]; exact hq
    unfold planeContains
    have hnn : (Plane.negP (mkPlane p0 p1 p2)).n = Vec.smul (-t) P.plane.n := by
      show (mkPlane p0 p1 p2).n.neg = _
      rw [hrefit, Vec.neg_eq_smul, Vec.smul_smul]
      norm_num
    have hpp : (Plane.negP (mkPlane p0 p1 p2)).p = p0 := rfl
    rw [hnn, hpp, Vec.dot_smul_left, Vec.dot_smul_left, hcop q hq', hbase]
    simp only [sub_self, qabs_zero]
    exact eps_pos
  -- run the reversed construction
  have hndc : (p0 :: p1 :: p2 :: rest).Nodup := by rw [← hpts]; exact hnd
  obtain ⟨canon, hcs, hpermc⟩ := checkAndSort_perm (Plane.negP (mkPlane p0 p1 p2))
    (centerPoint (p0 :: p1 :: p2 :: rest)) (p0 :: p1 :: p2 :: rest) hcop' hndc hknd
  have hrun : negPoly P = .ok ⟨canon, Plane.negP (mkPlane p0 p1 p2),
      centerPoint (p0 :: p1 :: p2 :: rest)⟩ := by
    unfold negPoly initPoly
    rw [hpts, pydedup_eq_self_of_nodup _ hndc]
    rw [if_neg (by simp)]
    simp only [if_pos]
    rw [hcs]
  refine ⟨_, hrun, ?_, ?_⟩
  · -- plain __eq__: the hashes agree
    have hsum : pointHashSum canon = pointHashSum P.points := by
      rw [hpts]
      exact pointHashSum_perm hpermc
    have hpair := planeHash_pair_eq P.plane (Plane.negP (mkPlane p0 p1 p2)) hn
      (by show (mkPlane p0 p1 p2).n.neg ≠ Vec.zero; exact Vec.neg_ne_zero hmkn)
      (Or.inr cf_neg)
    show decide (polyHash P = polyHash _) = true
    rw [decide_eq_true_eq]
    unfold polyHash
    rw [hsum, hpair.1, hpair.2]
  · -- eq_with_normal: the unsymmetrized plane hashes differ
    show decide (hashWithNormal P = hashWithNormal ⟨canon,
      Plane.negP (mkPlane p0 p1 p2), centerPoint (p0 :: p1 :: p2 :: rest)⟩) = false
    rw [decide_eq_false_iff_not]
    intro he
    have h2 := congrArg Prod.snd he
    simp only [hashWithNormal] at h2
    have hcf := (pyHashPlane_eq_iff _ _).mp h2
    rw [cf_neg] at hcf
    exact canonForm_negP_ne P.plane hn hcf.symm

/-- Witness for C6: the invariants hold for the unit(-side-2) square, and
its negation compares equal under `__eq__` but not under `eq_with_normal`. -/
theorem C6_witness :
    sqPoly.points.Nodup ∧ (0 : ℚ) < 1 ∧
      ∃ Q, negPoly sqPoly = .ok Q ∧ eqPy sqPoly (.polyArg Q) = true ∧
        eqWithNormalPy sqPoly (.polyArg Q) = false :=
  ⟨by decide, by decide,
    C6_neg_eq_plain_but_not_with_normal sqPoly (by decide) (by decide) (by decide)
      (by decide) 1 (by decide) (by decide) (by decide)⟩

/-! ### C8: `move` with the zero vector -/

theorem Point.move_zero (p : Point) : p.move Vec.zero = p := by
  cases p
  simp [Point.move, Vec.zero]

/-- C8.  For a `ConvexPolygen` state satisfying the construction invariants
(distinct points, at least three, nondegenerate stored normal, exact
coplanarity, the plane refitted from the first three canonical points
parallel to the stored normal by some nonzero factor `t`, no angle-key ties
in the rebuild's sort), `move` with the zero vector returns a polygon that
compares equal to the original under plain `__eq__` (the
orientation-insensitive hash). -/
theorem C8_move_zero_returns_equal_polygon (P : Poly)
    (hnd : P.points.Nodup) (hlen : 3 ≤ P.points.length)
    (hn : P.plane.n ≠ Vec.zero)
    (hcop : ∀ q ∈ P.points, Vec.dot P.plane.n q.pv = Vec.dot P.plane.n P.plane.p.pv)
    (t : ℚ) (ht : t ≠ 0)
    (hrefit : (mkPlane (P.points.getD 0 dummyPoint) (P.points.getD 1 dummyPoint)
      (P.points.getD 2 dummyPoint)).n = Vec.smul t P.plane.n)
    (hknd : (sortKeys (mkPlane (P.points.getD 0 dummyPoint)
        (P.points.getD 1 dummyPoint) (P.points.getD 2 dummyPoint))
      (centerPoint P.points) P.points).Nodup) :
    ∃ Q, (movePoly P Vec.zero).2 = .ok Q ∧ eqPy P (.polyArg Q) = true := by
  obtain ⟨p0, p1, p2, rest, hpts⟩ := exists_three_cons hlen
  rw [hpts] at hknd hrefit
  simp only [List.getD_cons_zero, List.getD_cons_succ] at hknd hrefit
  have hmap : P.points.map (fun p => p.move Vec.zero) = P.points := by
    simp only [Point.move_zero]
    exact List.map_id' P.points
  have hmove : (movePoly P Vec.zero).2 = initPoly P.points false := by
    unfold movePoly
    rw [hmap]
  have hmkn : (mkPlane p0 p1 p2).n ≠ Vec.zero := by
    rw [hrefit]
    exact Vec.smul_ne_zero ht hn
  have hmk : mkPlane p0 p1 p2 = ⟨p0, Vec.smul t P.plane.n⟩ := by
    rw [← hrefit]
    rfl
  have hp0 : p0 ∈ P.points := by rw [hpts]; exact List.mem_cons_self _ _
  have hbase : Vec.dot P.plane.n p0.pv = Vec.dot P.plane.n P.plane.p.pv := hcop p0 hp0
  have cf_mk : canonForm (mkPlane p0 p1 p2) =
      if 0 < t then canonForm P.plane else canonForm P.plane.negP := by
    rw [hmk]
    exact canonForm_parallel_base P.plane p0 t ht hn hbase
  have hcop' : ∀ q ∈ p0 :: p1 :: p2 :: rest, planeContains (mkPlane p0 p1 p2) q := by
    intro q hq
    have hq' : q ∈ P.points := by rw [hpts]; exact hq
    unfold planeContains
    have hpp : (mkPlane p0 p1 p2).p = p0 := rfl
    rw [hpp, hrefit, Vec.dot_smul_left, Vec.dot_smul_left, hcop q hq', hbase]
    simp only [sub_self, qabs_zero]
    exact eps_pos
  have hndc : (p0 :: p1 :: p2 :: rest).Nodup := by rw [← hpts]; exact hnd
  obtain ⟨canon, hcs, hpermc⟩ := checkAndSort_perm (mkPlane p0 p1 p2)
    (centerPoint (p0 :: p1 :: p2 :: rest)) (p0 :: p1 :: p2 :: rest) hcop' hndc hknd
  have hrun : initPoly P.points false = .ok ⟨canon, mkPlane p0 p1 p2,
      centerPoint (p0 :: p1 :: p2 :: rest)⟩ := by
    unfold initPoly
    rw [hpts, pydedup_eq_self_of_nodup _ hndc]
    rw [if_neg (by simp)]
    simp only [Bool.false_eq_true, if_false]
    rw [hcs]
  refine ⟨_, hmove.trans hrun, ?_⟩
  have hsum : pointHashSum canon = pointHashSum P.points := by
    rw [hpts]
    exact pointHashSum_perm hpermc
  have hpair := planeHash_pair_eq P.plane (mkPlane p0 p1 p2) hn hmkn ?side
  case side =>
    rcases lt_or_gt_of_ne ht with htn | htp
    · right
      rw [cf_mk, if_neg (not_lt.mpr (le_of_lt htn))]
    · left
      rw [cf_mk, if_pos htp]
  show decide (polyHash P = polyHash ⟨canon, mkPlane p0 p1 p2,
    centerPoint (p0 :: p1 :: p2 :: rest)⟩) = true
  rw [decide_eq_true_eq]
  unfold polyHash
  rw [hsum, hpair.1, hpair.2]

/-- Witness for C8: moving the square by the zero vector returns an equal
polygon. -/
theorem C8_witness :
    sqPoly.points.Nodup ∧ (1 : ℚ) ≠ 0 ∧
      ∃ Q, (movePoly sqPoly Vec.zero).2 = .ok Q ∧
        eqPy sqPoly (.polyArg Q) = true :=
  ⟨by decide, by decide,
    C8_move_zero_returns_equal_polygon sqPoly (by decide) (by decide) (by decide)
      (by decide) 1 (by decide) (by decide) (by decide)⟩

/-! ### C3: permuted input -/

theorem Vec.smul_zero_left (v : Vec) : Vec.smul 0 v = Vec.zero := by
  simp [Vec.smul, Vec.zero]

theorem Vec.sub_self_zero (v : Vec) : Vec.sub v v = Vec.zero := by
  simp [Vec.sub, Vec.zero]

/-- Observe the canonical point tuple of a construction result (`none` when
construction failed). -/
def pointsOfResult : Except GeoErr Poly → Option (List Point)
  | .ok P => some P.points
  | .error _ => none

/-- Counterexample to C3 as stated: swapping the first two vertices of a
square yields a successfully constructed polygon whose canonical `points`
tuple DIFFERS from the original's (the angular sort starts at the new first
point and the fitted plane flips, reversing the cycle), refuting "the same
ordered tuple". -/
theorem C3_counterexample :
    pointsOfResult (initPoly [⟨0, 0, 0⟩, ⟨2, 0, 0⟩, ⟨2, 2, 0⟩, ⟨0, 2, 0⟩] false) ≠
        none ∧
      pointsOfResult (initPoly [⟨2, 0, 0⟩, ⟨0, 0, 0⟩, ⟨2, 2, 0⟩, ⟨0, 2, 0⟩] false) ≠
        none ∧
      pointsOfResult (initPoly [⟨2, 0, 0⟩, ⟨0, 0, 0⟩, ⟨2, 2, 0⟩, ⟨0, 2, 0⟩] false) ≠
        pointsOfResult (initPoly [⟨0, 0, 0⟩, ⟨2, 0, 0⟩, ⟨2, 2, 0⟩, ⟨0, 2, 0⟩] false) := by
  decide

/-- C3, amended.  Constructing from a permuted copy of a valid point set
yields the same canonical vertex SET — the canonical `points` sequence is a
permutation (the cycle may start elsewhere and may be reversed when the
permutation flips the fitted plane) rather than the identical ordered
tuple — and an object with equal (orientation-insensitive) hash.
Hypotheses are the validity conditions: at least 3 distinct points,
nondegenerate fitted normals for both dedup orders, exact coplanarity, and
no angle-key ties in either sort. -/
theorem C3_permuted_input_same_set_equal_hash_amended (S Sp : List Point)
    (hperm : Sp.Perm S)
    (hlen : 3 ≤ (pydedup S).length)
    (hn1 : (mkPlane ((pydedup S).getD 0 dummyPoint) ((pydedup S).getD 1 dummyPoint)
      ((pydedup S).getD 2 dummyPoint)).n ≠ Vec.zero)
    (hn2 : (mkPlane ((pydedup Sp).getD 0 dummyPoint) ((pydedup Sp).getD 1 dummyPoint)
      ((pydedup Sp).getD 2 dummyPoint)).n ≠ Vec.zero)
    (hcop : ∀ q ∈ S,
      Vec.dot (mkPlane ((pydedup S).getD 0 dummyPoint) ((pydedup S).getD 1 dummyPoint)
          ((pydedup S).getD 2 dummyPoint)).n q.pv =
        Vec.dot (mkPlane ((pydedup S).getD 0 dummyPoint) ((pydedup S).getD 1 dummyPoint)
          ((pydedup S).getD 2 dummyPoint)).n ((pydedup S).getD 0 dummyPoint).pv)
    (hknd1 : (sortKeys (mkPlane ((pydedup S).getD 0 dummyPoint)
        ((pydedup S).getD 1 dummyPoint) ((pydedup S).getD 2 dummyPoint))
      (centerPoint (pydedup S)) (pydedup S)).Nodup)
    (hknd2 : (sortKeys (mkPlane ((pydedup Sp).getD 0 dummyPoint)
        ((pydedup Sp).getD 1 dummyPoint) ((pydedup Sp).getD 2 dummyPoint))
      (centerPoint (pydedup Sp)) (pydedup Sp)).Nodup) :
    ∃ P1 P2, initPoly S false = .ok P1 ∧ initPoly Sp false = .ok P2 ∧
      P2.points.Perm P1.points ∧ polyHash P2 = polyHash P1 := by
  have hd12 : (pydedup Sp).Perm (pydedup S) := pydedup_perm_of_perm hperm
  have hlen2 : 3 ≤ (pydedup Sp).length := by rw [hd12.length_eq]; exact hlen
  obtain ⟨a1, b1, c1, r1, hd1⟩ := exists_three_cons hlen
  obtain ⟨a2, b2, c2, r2, hd2⟩ := exists_three_cons hlen2
  rw [hd1] at hn1 hcop hknd1
  rw [hd2] at hn2 hknd2
  simp only [List.getD_cons_zero, List.getD_cons_succ] at hn1 hn2 hcop hknd1 hknd2
  have hlenS : 3 ≤ S.length := le_trans hlen (pydedupA_length_le [] S)
  have hlenSp : 3 ≤ Sp.length := by rw [hperm.length_eq]; exact hlenS
  -- membership transfer into S
  have hmem1 : ∀ q ∈ a1 :: b1 :: c1 :: r1, q ∈ S := by
    intro q hq
    exact (mem_pydedup S).mp (hd1 ▸ hq)
  have hmem2 : ∀ q ∈ a2 :: b2 :: c2 :: r2, q ∈ S := by
    intro q hq
    exact hperm.mem_iff.mp ((mem_pydedup Sp).mp (hd2 ▸ hq))
  set n1 : Vec := (mkPlane a1 b1 c1).n with hn1def
  -- construction from S
  have hcop1 : ∀ q ∈ a1 :: b1 :: c1 :: r1, planeContains (mkPlane a1 b1 c1) q := by
    intro q hq
    unfold planeContains
    rw [show (mkPlane a1 b1 c1).p = a1 from rfl, hcop q (hmem1 q hq),
      hcop a1 (hmem1 a1 (List.mem_cons_self _ _))]
    simp only [sub_self, qabs_zero]
    exact eps_pos
  have hnd1 : (a1 :: b1 :: c1 :: r1).Nodup := hd1 ▸ nodup_pydedup S
  obtain ⟨canon1, hcs1, hperm1⟩ := checkAndSort_perm (mkPlane a1 b1 c1)
    (centerPoint (a1 :: b1 :: c1 :: r1)) (a1 :: b1 :: c1 :: r1) hcop1 hnd1 hknd1
  have hrun1 : initPoly S false = .ok ⟨canon1, mkPlane a1 b1 c1,
      centerPoint (a1 :: b1 :: c1 :: r1)⟩ := by
    unfold initPoly
    rw [hd1, if_neg (not_lt.mpr hlenS)]
    simp only [Bool.false_eq_true, if_false]
    rw [hcs1]
  -- the second fitted normal is parallel to the first
  have hdotu : Vec.dot n1 (vsub a2 b2) = 0 := by
    rw [Vec.dot_vsub, hcop b2 (hmem2 b2 (by simp)), hcop a2 (hmem2 a2 (by simp))]
    ring
  have hdotw : Vec.dot n1 (vsub a2 c2) = 0 := by
    rw [Vec.dot_vsub, hcop c2 (hmem2 c2 (by simp)), hcop a2 (hmem2 a2 (by simp))]
    ring
  have hcrossz : Vec.cross n1 (mkPlane a2 b2 c2).n = Vec.zero := by
    show Vec.cross n1 (Vec.cross (vsub a2 b2) (vsub a2 c2)) = Vec.zero
    rw [Vec.cross_cross, hdotu, hdotw, Vec.smul_zero_left, Vec.smul_zero_left,
      Vec.sub_self_zero]
  obtain ⟨t, hsmul⟩ := Vec.exists_smul_of_cross_eq_zero hn1 hcrossz
  have ht : t ≠ 0 := by
    intro h0
    rw [h0, Vec.smul_zero_left] at hsmul
    exact hn2 hsmul
  have hmk2 : mkPlane a2 b2 c2 = ⟨a2, Vec.smul t n1⟩ := by
    rw [← hsmul]
    rfl
  have hbase2 : Vec.dot n1 a2.pv = Vec.dot n1 (mkPlane a1 b1 c1).p.pv := by
    rw [show (mkPlane a1 b1 c1).p = a1 from rfl, hcop a2 (hmem2 a2 (by simp))]
  have cf2 : canonForm (mkPlane a2 b2 c2) =
      if 0 < t then canonForm (mkPlane a1 b1 c1)
      else canonForm (mkPlane a1 b1 c1).negP := by
    rw [hmk2]
    exact canonForm_parallel_base (mkPlane a1 b1 c1) a2 t ht hn1 hbase2
  -- construction from Sp
  have hcop2 : ∀ q ∈ a2 :: b2 :: c2 :: r2, planeContains (mkPlane a2 b2 c2) q := by
    intro q hq
    unfold planeContains
    rw [show (mkPlane a2 b2 c2).p = a2 from rfl, hsmul, Vec.dot_smul_left,
      Vec.dot_smul_left, hcop q (hmem2 q hq), hcop a2 (hmem2 a2 (by simp))]
    simp only [sub_self, qabs_zero]
    exact eps_pos
  have hnd2 : (a2 :: b2 :: c2 :: r2).Nodup := hd2 ▸ nodup_pydedup Sp
  obtain ⟨canon2, hcs2, hperm2⟩ := checkAndSort_perm (mkPlane a2 b2 c2)
    (centerPoint (a2 :: b2 :: c2 :: r2)) (a2 :: b2 :: c2 :: r2) hcop2 hnd2 hknd2
  have hrun2 : initPoly Sp false = .ok ⟨canon2, mkPlane a2 b2 c2,
      centerPoint (a2 :: b2 :: c2 :: r2)⟩ := by
    unfold initPoly
    rw [hd2, if_neg (not_lt.mpr hlenSp)]
    simp only [Bool.false_eq_true, if_false]
    rw [hcs2]
  have hdc : (a2 :: b2 :: c2 :: r2).Perm (a1 :: b1 :: c1 :: r1) := by
    rw [← hd1, ← hd2]
    exact hd12
  refine ⟨_, _, hrun1, hrun2, ?_, ?_⟩
  · -- canonical points are a permutation of each other
    exact hperm2.trans (hdc.trans hperm1.symm)
  · -- equal hashes
    have hsum : pointHashSum canon2 = pointHashSum canon1 :=
      pointHashSum_perm (hperm2.trans (hdc.trans hperm1.symm))
    have hpair := planeHash_pair_eq (mkPlane a1 b1 c1) (mkPlane a2 b2 c2) hn1 hn2 ?side
    case side =>
      rcases lt_or_gt_of_ne ht with htn | htp
      · right
        rw [cf2, if_neg (not_lt.mpr (le_of_lt htn))]
      · left
        rw [cf2, if_pos htp]
    unfold polyHash
    rw [hsum, hpair.1, hpair.2]

/-- Witness for C3 (amended): the square and its first-two-swapped copy. -/
theorem C3_witness :
    3 ≤ (pydedup [(⟨0, 0, 0⟩ : Point), ⟨2, 0, 0⟩, ⟨2, 2, 0⟩, ⟨0, 2, 0⟩]).length ∧
      ∃ P1 P2,
        initPoly [⟨0, 0, 0⟩, ⟨2, 0, 0⟩, ⟨2, 2, 0⟩, ⟨0, 2, 0⟩] false = .ok P1 ∧
        initPoly [⟨2, 0, 0⟩, ⟨0, 0, 0⟩, ⟨2, 2, 0⟩, ⟨0, 2, 0⟩] false = .ok P2 ∧
        P2.points.Perm P1.points ∧ polyHash P2 = polyHash P1 :=
  ⟨by decide,
    C3_permuted_input_same_set_equal_hash_amended
      [⟨0, 0, 0⟩, ⟨2, 0, 0⟩, ⟨2, 2, 0⟩, ⟨0, 2, 0⟩]
      [⟨2, 0, 0⟩, ⟨0, 0, 0⟩, ⟨2, 2, 0⟩, ⟨0, 2, 0⟩]
      (List.Perm.swap (⟨0, 0, 0⟩ : Point) (⟨2, 0, 0⟩ : Point)
        [(⟨2, 2, 0⟩ : Point), (⟨0, 2, 0⟩ : Point)])
      (by decide) (by decide) (by decide) (by decide) (by decide) (by decide)⟩

end Geometry3D
